import Mathlib

/-!
Verification of the compliance-matching core of the CVR_reader repository
(`src/app.py`, duplicated in `src/app_cpp.py`).

Modelling conventions (shallow embedding):
* Python strings are modelled as `List Char`.  The character classes of the
  regexes involved (`[^a-zA-Z0-9\s]`, `\b`, `\w`, `str.lower`, `str.strip`,
  `str.split`) are modelled over their ASCII behaviour: `pyIsSpace` covers the
  six ASCII whitespace characters matched by Python's `\s`, `Char.toLower`
  lowercases exactly the ASCII range like Python does on ASCII input.
* Python floats returned by the `rapidfuzz` similarity metrics are modelled as
  exact rationals `ℚ`.  The three metrics themselves (`fuzz.partial_ratio`,
  `fuzz.token_set_ratio`, `fuzz.ratio`) are an external library dependency of
  the repository, not repository code, so they are abstracted as a `Scorer`
  record of three functions; the library guarantees its values lie in
  `[0, 100]`, which theorems take as a hypothesis where needed.
* The engine itself (`clean_text`, the sliding-window loop of
  `check_compliance`, the anti-false-positive clamp and the threshold test)
  is translated line by line below.
-/

/-- Python's `\s` class restricted to ASCII: the six whitespace characters
space, tab, newline, carriage return, vertical tab, form feed. -/
def pyIsSpace (c : Char) : Bool :=
  c = ' ' || c = '\t' || c = '\n' || c = '\x0d' || c = '\x0b' || c = '\x0c'

/-- ASCII letters and digits: the characters kept (besides whitespace) by the
regex `[^a-zA-Z0-9\s]` deletion in `clean_text` (app.py line 138). -/
def isAsciiAlnum (c : Char) : Bool :=
  ('a' ≤ c && c ≤ 'z') || ('A' ≤ c && c ≤ 'Z') || ('0' ≤ c && c ≤ '9')

/-- Python's `\w` class restricted to ASCII, which delimits the `\b` word
boundaries of the filler-word regex (app.py line 139). -/
def isWordChar (c : Char) : Bool :=
  isAsciiAlnum c || c = '_'

/-- `text.lower()` (app.py line 137), modelled on its ASCII behaviour. -/
def lowerStr (s : List Char) : List Char :=
  s.map Char.toLower

/-- `re.sub(r"[^a-zA-Z0-9\s]", "", text)` (app.py line 138): delete every
character that is neither an ASCII alphanumeric nor whitespace. -/
def keepAlnumSpace (s : List Char) : List Char :=
  s.filter fun c => isAsciiAlnum c || pyIsSpace c

/-- The filler-word alternation of app.py line 139. -/
def fillerWords : List (List Char) :=
  ["roger".toList, "copy".toList, "standby".toList, "okay".toList,
   "affirmative".toList, "negative".toList, "check".toList]

def isFiller (w : List Char) : Bool :=
  fillerWords.contains w

/-- What `re.sub(r"\b(?:roger|copy|standby|okay|affirmative|negative|check)\b", "", text)`
leaves of one maximal word-character run: the empty string if the run is a
filler word, the run itself otherwise. -/
def emitRun (w : List Char) : List Char :=
  if isFiller w then [] else w

/-- Worker for `removeFillers`: `cur` accumulates the current (still open)
maximal run of word characters; every non-word character is copied through
unchanged, and each completed maximal word run passes through `emitRun`.
A regex match of `\b(?:...)\b` consumes exactly a maximal run of `\w`
characters equal to one of the alternatives (both `\b` anchors force this),
so `re.sub` with the empty replacement deletes exactly the filler runs. -/
def rfAux : List Char → List Char → List Char
  | cur, [] => emitRun cur
  | cur, c :: rest =>
    if isWordChar c then rfAux (cur ++ [c]) rest
    else emitRun cur ++ c :: rfAux [] rest

/-- `re.sub(r"\b(?:roger|copy|standby|okay|affirmative|negative|check)\b", "", text)`
(app.py line 139). -/
def removeFillers (s : List Char) : List Char :=
  rfAux [] s

/-- Drop leading Python whitespace. -/
def lstrip (s : List Char) : List Char :=
  s.dropWhile pyIsSpace

/-- Drop trailing Python whitespace. -/
def rstrip (s : List Char) : List Char :=
  (s.reverse.dropWhile pyIsSpace).reverse

/-- `text.strip()` (app.py line 140), ASCII whitespace. -/
def pyStrip (s : List Char) : List Char :=
  rstrip (lstrip s)

/-- `clean_text` (app.py lines 132-140): lowercase, delete characters that are
not alphanumeric or whitespace, delete whole-word fillers, strip. -/
def clean_text (text : List Char) : List Char :=
  pyStrip (removeFillers (keepAlnumSpace (lowerStr text)))

/-- Worker for `runsBy`: collects the maximal runs of characters satisfying
`p`, discarding the characters that do not satisfy `p`. -/
def runsAux (p : Char → Bool) : List Char → List Char → List (List Char)
  | cur, [] => if cur = [] then [] else [cur]
  | cur, c :: rest =>
    if p c then runsAux p (cur ++ [c]) rest
    else if cur = [] then runsAux p [] rest
    else cur :: runsAux p [] rest

/-- The maximal runs of characters satisfying `p`, in order. -/
def runsBy (p : Char → Bool) (s : List Char) : List (List Char) :=
  runsAux p [] s

/-- The maximal word-character runs of a string: the "whole words" that the
`\b ... \b` filler regex can match. -/
def wordRuns (s : List Char) : List (List Char) :=
  runsBy isWordChar s

/-- Python `str.split()` with no argument (app.py line 149): the maximal runs
of non-whitespace characters; empty strings never appear in the result. -/
def pySplit (s : List Char) : List (List Char) :=
  runsBy (fun c => !pyIsSpace c) s

/-- Does `s` start with `pat`? -/
def begWith : List Char → List Char → Bool
  | [], _ => true
  | _ :: _, [] => false
  | a :: as, b :: bs => a = b && begWith as bs

/-- Python's substring test `pat in s` (the `in` of app.py line 180):
true iff `pat` occurs contiguously inside `s`; the empty string occurs in
every string. -/
def hasSub (pat : List Char) : List Char → Bool
  | [] => begWith pat []
  | c :: rest => begWith pat (c :: rest) || hasSub pat rest

/-- Abstraction of the external `rapidfuzz.fuzz` metrics used at app.py lines
169-171: `pr` models `fuzz.partial_ratio`, `tsr` models
`fuzz.token_set_ratio`, `ratio` models `fuzz.ratio`.  The library is not part
of this repository; theorems that depend on its output range state the
documented guarantee (values in `[0, 100]`) as a hypothesis. -/
structure Scorer where
  pr : List Char → List Char → ℚ
  tsr : List Char → List Char → ℚ
  ratio : List Char → List Char → ℚ

/-- The blended score of app.py line 174:
`max(pr, tsr, ratio) * 0.6 + mean([pr, tsr, ratio]) * 0.4`
(`statistics.mean` of three values is their sum divided by 3). -/
def blendScore (pr tsr ratio : ℚ) : ℚ :=
  max (max pr tsr) ratio * 0.6 + (pr + tsr + ratio) / 3 * 0.4

/-- The blended score of one scored candidate: the three metrics are invoked
as `fuzz.xxx(step_clean, current_chunk_clean)` (app.py lines 169-171). -/
def chunkScore (s : Scorer) (a b : List Char) : ℚ :=
  blendScore (s.pr a b) (s.tsr a b) (s.ratio a b)

/-- `MAX_CHUNK_WORDS` (app.py line 152). -/
def MAX_CHUNK_WORDS : Nat := 20

/-- `' '.join(transcript_words_raw[i:j])` (app.py lines 161-162). -/
def chunkOf (ws : List (List Char)) (i j : Nat) : List Char :=
  List.intercalate [' '] ((ws.drop i).take (j - i))

/-- The index pairs `(i, j)` visited by the nested loops of app.py lines
159-160: `i` in `range(len(words))`, `j` in
`range(i + 1, min(i + MAX_CHUNK_WORDS + 1, len(words) + 1))`,
in exactly that enumeration order. -/
def candidatePairs (n : Nat) : List (Nat × Nat) :=
  (List.range n).flatMap fun i =>
    (List.range' (i + 1) (min (i + MAX_CHUNK_WORDS + 1) (n + 1) - (i + 1))).map
      fun j => (i, j)

/-- The raw chunk of span `p` (`current_chunk_raw`, app.py line 162). -/
def spanChunk (ws : List (List Char)) (p : Nat × Nat) : List Char :=
  chunkOf ws p.1 p.2

/-- The normalised chunk of span `p` (`current_chunk_clean`, app.py line 164). -/
def spanClean (ws : List (List Char)) (p : Nat × Nat) : List Char :=
  clean_text (spanChunk ws p)

/-- The blended score of span `p` (`score`, app.py line 174). -/
def spanScore (s : Scorer) (sc : List Char) (ws : List (List Char)) (p : Nat × Nat) : ℚ :=
  chunkScore s sc (spanClean ws p)

/-- One iteration of the inner loop body of app.py lines 161-178: skip the
span if its normalisation is empty, otherwise replace the running best on a
strictly greater score. -/
def searchStep (s : Scorer) (step_clean : List Char) (ws : List (List Char))
    (best : ℚ × List Char) (p : Nat × Nat) : ℚ × List Char :=
  let current_chunk_raw := chunkOf ws p.1 p.2
  let current_chunk_clean := clean_text current_chunk_raw
  if current_chunk_clean = [] then best
  else
    let score := chunkScore s step_clean current_chunk_clean
    if best.1 < score then (score, current_chunk_raw) else best

/-- The whole window search for one checklist item (app.py lines 156-178),
starting from `best_score = 0`, `best_chunk_raw = ""`. -/
def bestSpan (s : Scorer) (step_clean : List Char) (ws : List (List Char)) :
    ℚ × List Char :=
  (candidatePairs ws.length).foldl (searchStep s step_clean ws) (0, [])

/-- The argument pairs passed to the three `fuzz` metric calls while searching
one checklist item: one invocation per non-skipped span, always with
`(step_clean, current_chunk_clean)` (app.py lines 164-171).  This mirrors the
loop of `bestSpan` exactly and records the invocations instead of folding the
scores. -/
def scorerCalls (step : List Char) (ws : List (List Char)) :
    List (List Char × List Char) :=
  (candidatePairs ws.length).filterMap fun p =>
    let current_chunk_clean := clean_text (chunkOf ws p.1 p.2)
    if current_chunk_clean = [] then none
    else some (clean_text step, current_chunk_clean)

inductive Status
  | PASS
  | FAIL
deriving DecidableEq, Repr

/-- One element of the `results` list of app.py line 188, in the tuple order
`(status, step, best_score, best_chunk_raw)` of the source. -/
structure MatchResult where
  status : Status
  item : List Char
  score : ℚ
  chunk : List Char
deriving DecidableEq, Repr

/-- The body of the `for step in checklist` loop of app.py lines 154-188:
window search, anti-false-positive clamp (line 180-181), threshold test
(line 188). -/
def evalStep (s : Scorer) (ws : List (List Char)) (transcript : List Char)
    (threshold : ℚ) (step : List Char) : MatchResult :=
  let step_clean := clean_text step
  let best := bestSpan s step_clean ws
  let best_score :=
    if best.1 = 100 ∧ hasSub step_clean (clean_text transcript) = false then (99 : ℚ)
    else best.1
  { status := if threshold ≤ best_score then Status.PASS else Status.FAIL
    item := step
    score := best_score
    chunk := best.2 }

/-- `check_compliance` (app.py lines 142-190): split the lowercased transcript
into words once, then evaluate every checklist item in order. -/
def check_compliance (s : Scorer) (transcript : List Char)
    (checklist : List (List Char)) (threshold : ℚ) : List MatchResult :=
  let transcript_words_raw := pySplit (lowerStr transcript)
  checklist.map (evalStep s transcript_words_raw transcript threshold)

/-- `clean_text` of src/app_cpp.py lines 117-125 (textually identical to the
app.py version). -/
def clean_text_cpp (text : List Char) : List Char :=
  pyStrip (removeFillers (keepAlnumSpace (lowerStr text)))

/-- Loop body of app_cpp.py lines 144-162. -/
def searchStep_cpp (s : Scorer) (step_clean : List Char) (ws : List (List Char))
    (best : ℚ × List Char) (p : Nat × Nat) : ℚ × List Char :=
  let current_chunk_raw := chunkOf ws p.1 p.2
  let current_chunk_clean := clean_text_cpp current_chunk_raw
  if current_chunk_clean = [] then best
  else
    let score := chunkScore s step_clean current_chunk_clean
    if best.1 < score then (score, current_chunk_raw) else best

/-- Window search of app_cpp.py lines 141-162. -/
def bestSpan_cpp (s : Scorer) (step_clean : List Char) (ws : List (List Char)) :
    ℚ × List Char :=
  (candidatePairs ws.length).foldl (searchStep_cpp s step_clean ws) (0, [])

/-- Per-item body of app_cpp.py lines 139-172. -/
def evalStep_cpp (s : Scorer) (ws : List (List Char)) (transcript : List Char)
    (threshold : ℚ) (step : List Char) : MatchResult :=
  let step_clean := clean_text_cpp step
  let best := bestSpan_cpp s step_clean ws
  let best_score :=
    if best.1 = 100 ∧ hasSub step_clean (clean_text_cpp transcript) = false then (99 : ℚ)
    else best.1
  { status := if threshold ≤ best_score then Status.PASS else Status.FAIL
    item := step
    score := best_score
    chunk := best.2 }

/-- `check_compliance` of src/app_cpp.py lines 127-174 (textually identical to
the app.py version). -/
def check_compliance_cpp (s : Scorer) (transcript : List Char)
    (checklist : List (List Char)) (threshold : ℚ) : List MatchResult :=
  let transcript_words_raw := pySplit (lowerStr transcript)
  checklist.map (evalStep_cpp s transcript_words_raw transcript threshold)

/-- A scorer whose three metrics all return the constant `v`.  With `v = 0`
this realises what `rapidfuzz` returns on strings sharing no characters
(for example `fuzz.ratio("a", "b") = 0`); with other constants it provides
concrete instances satisfying the `[0, 100]` range guarantee. -/
def constScorer (v : ℚ) : Scorer :=
  ⟨fun _ _ => v, fun _ _ => v, fun _ _ => v⟩

/-! ### Basic list facts used throughout -/

theorem length_dropWhile_le (p : Char → Bool) (l : List Char) :
    (l.dropWhile p).length ≤ l.length := by
  induction l with
  | nil => simp
  | cons c t ih =>
    by_cases h : p c = true
    · rw [List.dropWhile_cons, if_pos h]
      exact ih.trans (by simp)
    · rw [List.dropWhile_cons, if_neg h]

theorem mem_takeWhile_p (p : Char → Bool) (l : List Char) :
    ∀ c ∈ l.takeWhile p, p c = true := by
  induction l with
  | nil => simp
  | cons a t ih =>
    rw [List.takeWhile_cons]
    by_cases h : p a = true
    · rw [if_pos h]
      intro c hc
      rcases List.mem_cons.mp hc with rfl | hmem
      · exact h
      · exact ih c hmem
    · rw [if_neg h]
      simp

theorem head?_dropWhile_false (p : Char → Bool) (l : List Char) :
    ∀ c, (l.dropWhile p).head? = some c → p c = false := by
  induction l with
  | nil => intro c hc; simp at hc
  | cons a t ih =>
    intro c hc
    rw [List.dropWhile_cons] at hc
    by_cases h : p a = true
    · rw [if_pos h] at hc
      exact ih c hc
    · rw [if_neg h] at hc
      simp only [List.head?_cons, Option.some.injEq] at hc
      subst hc
      simpa using h

theorem mem_dropWhile (p : Char → Bool) (l : List Char) :
    ∀ c ∈ l.dropWhile p, c ∈ l := by
  intro c hc
  have h := List.takeWhile_append_dropWhile p l
  rw [← h]
  exact List.mem_append.mpr (Or.inr hc)

theorem dropWhile_dropWhile (p : Char → Bool) (l : List Char) :
    (l.dropWhile p).dropWhile p = l.dropWhile p := by
  induction l with
  | nil => simp
  | cons c t ih =>
    by_cases h : p c = true
    · rw [List.dropWhile_cons, if_pos h, ih]
    · rw [List.dropWhile_cons, if_neg h, List.dropWhile_cons, if_neg h]

/-- Induction on a string by its maximal runs of characters satisfying `p`:
a string is empty, or starts with a character failing `p`, or starts with a
nonempty maximal run of characters satisfying `p`. -/
theorem runInduction (p : Char → Bool) (P : List Char → Prop) (h0 : P [])
    (h1 : ∀ c t, p c = false → P t → P (c :: t))
    (h2 : ∀ w t, w ≠ [] → (∀ c ∈ w, p c = true) →
      (∀ c, t.head? = some c → p c = false) → P t → P (w ++ t)) :
    ∀ s, P s := by
  have key : ∀ n (s : List Char), s.length ≤ n → P s := by
    intro n
    induction n with
    | zero =>
      intro s hs
      cases s with
      | nil => exact h0
      | cons c t => simp at hs
    | succ n ih =>
      intro s hs
      cases s with
      | nil => exact h0
      | cons c t =>
        by_cases hc : p c = true
        · have htw : (c :: t).takeWhile p = c :: t.takeWhile p := by
            rw [List.takeWhile_cons, if_pos hc]
          have hdw : (c :: t).dropWhile p = t.dropWhile p := by
            rw [List.dropWhile_cons, if_pos hc]
          have hlen : ((c :: t).dropWhile p).length ≤ n := by
            rw [hdw]
            have := length_dropWhile_le p t
            simp only [List.length_cons] at hs
            omega
          have hres := h2 ((c :: t).takeWhile p) ((c :: t).dropWhile p)
            (by rw [htw]; simp)
            (mem_takeWhile_p p (c :: t))
            (head?_dropWhile_false p (c :: t))
            (ih _ hlen)
          rw [List.takeWhile_append_dropWhile p (c :: t)] at hres
          exact hres
        · have hc' : p c = false := by simpa using hc
          have hlen : t.length ≤ n := by
            simp only [List.length_cons] at hs
            omega
          exact h1 c t hc' (ih t hlen)
  exact fun s => key s.length s le_rfl

/-! ### Shape lemmas for `runsBy` -/

theorem runsBy_nil (p : Char → Bool) : runsBy p [] = [] := by
  simp [runsBy, runsAux]

theorem runsBy_cons_false (p : Char → Bool) (c : Char) (t : List Char)
    (hc : p c = false) : runsBy p (c :: t) = runsBy p t := by
  simp [runsBy, runsAux, hc]

theorem runsAux_append_p (p : Char → Bool) :
    ∀ (w cur t : List Char), (∀ c ∈ w, p c = true) →
      runsAux p cur (w ++ t) = runsAux p (cur ++ w) t := by
  intro w
  induction w with
  | nil =>
    intro cur t _
    simp
  | cons c w' ih =>
    intro cur t hw
    have hc : p c = true := hw c (by simp)
    show runsAux p cur (c :: (w' ++ t)) = _
    simp only [runsAux, hc, if_true]
    rw [ih (cur ++ [c]) t (fun d hd => hw d (by simp [hd]))]
    simp

theorem runsAux_flush (p : Char → Bool) (cur t : List Char) (hcur : cur ≠ [])
    (ht : ∀ c, t.head? = some c → p c = false) :
    runsAux p cur t = cur :: runsBy p t := by
  cases t with
  | nil => simp [runsAux, hcur, runsBy]
  | cons d t' =>
    have hd : p d = false := ht d rfl
    simp [runsAux, hd, hcur, runsBy]

theorem runsBy_run (p : Char → Bool) (w t : List Char) (hwne : w ≠ [])
    (hw : ∀ c ∈ w, p c = true) (ht : ∀ c, t.head? = some c → p c = false) :
    runsBy p (w ++ t) = w :: runsBy p t := by
  rw [runsBy, runsAux_append_p p w [] t hw]
  simpa using runsAux_flush p w t hwne ht

/-! ### Shape lemmas for `removeFillers` -/

theorem emitRun_nil : emitRun [] = [] := by
  simp [emitRun, ite_self]

theorem removeFillers_nil : removeFillers [] = [] := by
  simp [removeFillers, rfAux, emitRun_nil]

theorem removeFillers_cons_false (c : Char) (t : List Char)
    (hc : isWordChar c = false) :
    removeFillers (c :: t) = c :: removeFillers t := by
  simp [removeFillers, rfAux, hc, emitRun_nil]

theorem rfAux_append_word :
    ∀ (w cur t : List Char), (∀ c ∈ w, isWordChar c = true) →
      rfAux cur (w ++ t) = rfAux (cur ++ w) t := by
  intro w
  induction w with
  | nil =>
    intro cur t _
    simp
  | cons c w' ih =>
    intro cur t hw
    have hc : isWordChar c = true := hw c (by simp)
    show rfAux cur (c :: (w' ++ t)) = _
    simp only [rfAux, hc, if_true]
    rw [ih (cur ++ [c]) t (fun d hd => hw d (by simp [hd]))]
    simp

theorem rfAux_flush (cur t : List Char)
    (ht : ∀ c, t.head? = some c → isWordChar c = false) :
    rfAux cur t = emitRun cur ++ removeFillers t := by
  cases t with
  | nil => simp [rfAux, removeFillers_nil]
  | cons d t' =>
    have hd : isWordChar d = false := ht d rfl
    simp [rfAux, hd, removeFillers, emitRun_nil]

theorem removeFillers_run (w t : List Char)
    (hw : ∀ c ∈ w, isWordChar c = true)
    (ht : ∀ c, t.head? = some c → isWordChar c = false) :
    removeFillers (w ++ t) = emitRun w ++ removeFillers t := by
  rw [removeFillers, rfAux_append_word w [] t hw]
  simpa using rfAux_flush w t ht

theorem removeFillers_head_false (t : List Char)
    (ht : ∀ c, t.head? = some c → isWordChar c = false) :
    ∀ c, (removeFillers t).head? = some c → isWordChar c = false := by
  cases t with
  | nil =>
    rw [removeFillers_nil]
    intro c hc
    simp at hc
  | cons d t' =>
    have hd : isWordChar d = false := ht d rfl
    rw [removeFillers_cons_false d t' hd]
    intro c hc
    simp only [List.head?_cons, Option.some.injEq] at hc
    subst hc
    exact hd

/-! ### Word runs versus whitespace stripping and filler removal -/

theorem space_not_word (c : Char) (hc : pyIsSpace c = true) :
    isWordChar c = false := by
  simp only [pyIsSpace, Bool.or_eq_true, decide_eq_true_eq] at hc
  rcases hc with ((((h | h) | h) | h) | h) | h <;> subst h <;> decide

theorem runsBy_nil_of_false (p : Char → Bool) :
    ∀ w : List Char, (∀ c ∈ w, p c = false) → runsBy p w = [] := by
  intro w
  induction w with
  | nil => intro _; exact runsBy_nil p
  | cons c t ih =>
    intro hw
    rw [runsBy_cons_false p c t (hw c (by simp))]
    exact ih (fun d hd => hw d (by simp [hd]))

theorem runsBy_dropWhile (p q : Char → Bool)
    (hpq : ∀ c, q c = true → p c = false) (l : List Char) :
    runsBy p (l.dropWhile q) = runsBy p l := by
  induction l with
  | nil => simp
  | cons c t ih =>
    by_cases hq : q c = true
    · rw [List.dropWhile_cons, if_pos hq, ih, runsBy_cons_false p c t (hpq c hq)]
    · rw [List.dropWhile_cons, if_neg hq]

theorem runsBy_append_false (p : Char → Bool) (w : List Char)
    (hw : ∀ c ∈ w, p c = false) :
    ∀ v, runsBy p (v ++ w) = runsBy p v := by
  refine runInduction p (fun v => runsBy p (v ++ w) = runsBy p v) ?_ ?_ ?_
  · show runsBy p ([] ++ w) = runsBy p []
    rw [List.nil_append, runsBy_nil, runsBy_nil_of_false p w hw]
  · intro c t hc ih
    show runsBy p ((c :: t) ++ w) = runsBy p (c :: t)
    rw [List.cons_append, runsBy_cons_false p c _ hc, ih,
      runsBy_cons_false p c t hc]
  · intro u t hune hu ht ih
    show runsBy p ((u ++ t) ++ w) = runsBy p (u ++ t)
    have htw : ∀ c, (t ++ w).head? = some c → p c = false := by
      intro c hc
      cases t with
      | nil =>
        rw [List.nil_append] at hc
        cases w with
        | nil => simp at hc
        | cons d w' =>
          simp only [List.head?_cons, Option.some.injEq] at hc
          exact hc ▸ hw d (by simp)
      | cons d t' =>
        simp only [List.cons_append, List.head?_cons, Option.some.injEq] at hc
        exact hc ▸ ht d rfl
    rw [List.append_assoc, runsBy_run p u (t ++ w) hune hu htw, ih,
      ← runsBy_run p u t hune hu ht]

theorem rstrip_decomp (v : List Char) :
    ∃ w, v = rstrip v ++ w ∧ ∀ c ∈ w, pyIsSpace c = true := by
  refine ⟨(v.reverse.takeWhile pyIsSpace).reverse, ?_, ?_⟩
  · have h1 := List.takeWhile_append_dropWhile pyIsSpace v.reverse
    have h2 := congrArg List.reverse h1
    rw [List.reverse_append, List.reverse_reverse] at h2
    exact h2.symm
  · intro c hc
    rw [List.mem_reverse] at hc
    exact mem_takeWhile_p pyIsSpace v.reverse c hc

theorem wordRuns_lstrip (s : List Char) : wordRuns (lstrip s) = wordRuns s := by
  unfold wordRuns lstrip
  exact runsBy_dropWhile isWordChar pyIsSpace space_not_word s

theorem wordRuns_rstrip (s : List Char) : wordRuns (rstrip s) = wordRuns s := by
  obtain ⟨w, hdec, hsp⟩ := rstrip_decomp s
  unfold wordRuns
  conv_rhs => rw [hdec]
  rw [runsBy_append_false isWordChar w (fun c hc => space_not_word c (hsp c hc))]

theorem wordRuns_pyStrip (s : List Char) : wordRuns (pyStrip s) = wordRuns s := by
  unfold pyStrip
  rw [wordRuns_rstrip, wordRuns_lstrip]

theorem wordRuns_removeFillers (z : List Char) :
    wordRuns (removeFillers z) = (wordRuns z).filter (fun w => !isFiller w) := by
  unfold wordRuns
  refine runInduction isWordChar
    (fun z => runsBy isWordChar (removeFillers z) =
      (runsBy isWordChar z).filter (fun w => !isFiller w)) ?_ ?_ ?_ z
  · show runsBy isWordChar (removeFillers []) =
      (runsBy isWordChar []).filter (fun w => !isFiller w)
    rw [removeFillers_nil, runsBy_nil]
    simp
  · intro c t hc ih
    show runsBy isWordChar (removeFillers (c :: t)) =
      (runsBy isWordChar (c :: t)).filter (fun w => !isFiller w)
    rw [removeFillers_cons_false c t hc, runsBy_cons_false _ c _ hc,
      runsBy_cons_false _ c t hc]
    exact ih
  · intro w t hwne hw ht ih
    show runsBy isWordChar (removeFillers (w ++ t)) =
      (runsBy isWordChar (w ++ t)).filter (fun u => !isFiller u)
    rw [removeFillers_run w t hw ht, runsBy_run _ w t hwne hw ht, List.filter_cons]
    by_cases hf : isFiller w = true
    · have hemit : emitRun w = [] := by
        unfold emitRun
        rw [if_pos hf]
      rw [hemit, List.nil_append, ih, if_neg (by simp [hf])]
    · have hf' : isFiller w = false := by simpa using hf
      have hemit : emitRun w = w := by
        unfold emitRun
        rw [if_neg hf]
      rw [hemit, runsBy_run _ w (removeFillers t) hwne hw
        (removeFillers_head_false t ht), ih, if_pos (by simp [hf'])]

theorem removeFillers_fix (z : List Char) :
    (∀ w ∈ wordRuns z, isFiller w = false) → removeFillers z = z := by
  unfold wordRuns
  refine runInduction isWordChar
    (fun z => (∀ w ∈ runsBy isWordChar z, isFiller w = false) →
      removeFillers z = z) ?_ ?_ ?_ z
  · intro _
    exact removeFillers_nil
  · intro c t hc ih hz
    show removeFillers (c :: t) = c :: t
    rw [runsBy_cons_false _ c t hc] at hz
    rw [removeFillers_cons_false c t hc, ih hz]
  · intro w t hwne hw ht ih hz
    show removeFillers (w ++ t) = w ++ t
    rw [runsBy_run _ w t hwne hw ht] at hz
    have hfw : isFiller w = false := hz w (by simp)
    have hzt : ∀ u ∈ runsBy isWordChar t, isFiller u = false :=
      fun u hu => hz u (by simp [hu])
    rw [removeFillers_run w t hw ht]
    have hemit : emitRun w = w := by
      unfold emitRun
      rw [if_neg (by simp [hfw])]
    rw [hemit, ih hzt]

/-! ### Character membership through the `clean_text` pipeline -/

theorem mem_removeFillers (z : List Char) : ∀ c ∈ removeFillers z, c ∈ z := by
  refine runInduction isWordChar (fun z => ∀ c ∈ removeFillers z, c ∈ z) ?_ ?_ ?_ z
  · show ∀ c ∈ removeFillers [], c ∈ ([] : List Char)
    rw [removeFillers_nil]
    simp
  · intro d t hd ih
    show ∀ c ∈ removeFillers (d :: t), c ∈ d :: t
    rw [removeFillers_cons_false d t hd]
    intro c hc
    rcases List.mem_cons.mp hc with rfl | hmem
    · exact List.mem_cons_self c t
    · exact List.mem_cons_of_mem d (ih c hmem)
  · intro w t hwne hw ht ih
    show ∀ c ∈ removeFillers (w ++ t), c ∈ w ++ t
    rw [removeFillers_run w t hw ht]
    intro c hc
    rcases List.mem_append.mp hc with h | h
    · have hcw : c ∈ w := by
        by_cases hf : isFiller w = true
        · unfold emitRun at h
          rw [if_pos hf] at h
          simp at h
        · unfold emitRun at h
          rw [if_neg hf] at h
          exact h
      exact List.mem_append.mpr (Or.inl hcw)
    · exact List.mem_append.mpr (Or.inr (ih c h))

theorem mem_pyStrip (s : List Char) : ∀ c ∈ pyStrip s, c ∈ s := by
  intro c hc
  unfold pyStrip rstrip lstrip at hc
  rw [List.mem_reverse] at hc
  have h1 := mem_dropWhile pyIsSpace (s.dropWhile pyIsSpace).reverse c hc
  rw [List.mem_reverse] at h1
  exact mem_dropWhile pyIsSpace s c h1

/-! ### ASCII lowercasing facts -/

theorem toLower_eq (c : Char) :
    Char.toLower c =
      if c.toNat ≥ 65 ∧ c.toNat ≤ 90 then Char.ofNat (c.toNat + 32) else c := rfl

theorem charOfNat_toNat (n : Nat) (h : Nat.isValidChar n) :
    (Char.ofNat n).toNat = n := by
  simp only [Char.ofNat, dif_pos h, Char.ofNatAux, Char.toNat, UInt32.toNat]
  exact BitVec.toNat_ofNatLt ..

theorem toLower_toLower (d : Char) :
    Char.toLower (Char.toLower d) = Char.toLower d := by
  rw [toLower_eq d]
  by_cases h : d.toNat ≥ 65 ∧ d.toNat ≤ 90
  · rw [if_pos h, toLower_eq]
    have hv : Nat.isValidChar (d.toNat + 32) := Or.inl (by omega)
    have ht : (Char.ofNat (d.toNat + 32)).toNat = d.toNat + 32 :=
      charOfNat_toNat _ hv
    rw [ht, if_neg (by omega)]
  · rw [if_neg h, toLower_eq, if_neg h]

theorem lowerStr_fix (y : List Char) (hy : ∀ c ∈ y, Char.toLower c = c) :
    lowerStr y = y := by
  unfold lowerStr
  induction y with
  | nil => simp
  | cons c t ih =>
    simp only [List.map_cons]
    rw [hy c (by simp), ih (fun d hd => hy d (by simp [hd]))]

/-! ### Idempotence of `pyStrip` -/

theorem lstrip_rstrip (t : List Char) (ht : lstrip t = t) :
    lstrip (rstrip t) = rstrip t := by
  cases hr : rstrip t with
  | nil => simp [lstrip]
  | cons c w =>
    obtain ⟨sfx, hdec, _⟩ := rstrip_decomp t
    rw [hr] at hdec
    have hc : pyIsSpace c = false := by
      by_contra hcc
      have hcc' : pyIsSpace c = true := by simpa using hcc
      have hx : lstrip t = t := ht
      rw [hdec] at hx
      unfold lstrip at hx
      rw [List.cons_append, List.dropWhile_cons, if_pos hcc'] at hx
      have hle := length_dropWhile_le pyIsSpace (w ++ sfx)
      rw [hx] at hle
      simp at hle
    unfold lstrip
    rw [List.dropWhile_cons, if_neg (by simp [hc])]

theorem rstrip_rstrip (v : List Char) : rstrip (rstrip v) = rstrip v := by
  unfold rstrip
  rw [List.reverse_reverse, dropWhile_dropWhile]

theorem pyStrip_idem (s : List Char) : pyStrip (pyStrip s) = pyStrip s := by
  show rstrip (lstrip (rstrip (lstrip s))) = rstrip (lstrip s)
  rw [lstrip_rstrip (lstrip s) (dropWhile_dropWhile pyIsSpace s), rstrip_rstrip]

/-! ### Characters surviving `clean_text` -/

theorem clean_text_chars (x : List Char) :
    ∀ c ∈ clean_text x,
      (isAsciiAlnum c || pyIsSpace c) = true ∧ Char.toLower c = c := by
  intro c hc
  have h1 : c ∈ removeFillers (keepAlnumSpace (lowerStr x)) := mem_pyStrip _ c hc
  have h2 : c ∈ keepAlnumSpace (lowerStr x) := mem_removeFillers _ c h1
  unfold keepAlnumSpace at h2
  have h3 := List.mem_filter.mp h2
  refine ⟨h3.2, ?_⟩
  unfold lowerStr at h3
  obtain ⟨d, _, hd⟩ := List.mem_map.mp h3.1
  rw [← hd]
  exact toLower_toLower d

/-- Claim C6: `clean_text` is idempotent: applying it twice yields the same
result as applying it once, for every input string. -/
theorem clean_text_idem (x : List Char) :
    clean_text (clean_text x) = clean_text x := by
  have hch := clean_text_chars x
  have h1 : lowerStr (clean_text x) = clean_text x :=
    lowerStr_fix _ (fun c hc => (hch c hc).2)
  have h2 : keepAlnumSpace (clean_text x) = clean_text x := by
    unfold keepAlnumSpace
    exact List.filter_eq_self.mpr (fun c hc => (hch c hc).1)
  have h3 : ∀ w ∈ wordRuns (clean_text x), isFiller w = false := by
    intro w hw
    have hruns : wordRuns (clean_text x) =
        (wordRuns (keepAlnumSpace (lowerStr x))).filter (fun u => !isFiller u) := by
      show wordRuns (pyStrip (removeFillers (keepAlnumSpace (lowerStr x)))) = _
      rw [wordRuns_pyStrip, wordRuns_removeFillers]
    rw [hruns] at hw
    have := List.of_mem_filter hw
    simpa using this
  show pyStrip (removeFillers (keepAlnumSpace (lowerStr (clean_text x)))) = clean_text x
  rw [h1, h2, removeFillers_fix _ h3]
  show pyStrip (pyStrip (removeFillers (keepAlnumSpace (lowerStr x)))) = _
  exact pyStrip_idem _

/-- Claim C9: `clean_text` removes the filler words `roger, copy, standby,
okay, affirmative, negative, check` exactly when they occur as whole words of
the lowercased symbol-stripped text (whole words = maximal word-character
runs), and leaves every other word — in particular longer words containing a
filler as a proper substring — untouched: the word runs of the output are
precisely the non-filler word runs of the input, in order.  Concretely,
`clean_text "Check checkpoint" = "checkpoint"`. -/
theorem clean_text_filler_words (x : List Char) :
    wordRuns (clean_text x) =
      (wordRuns (keepAlnumSpace (lowerStr x))).filter (fun w => !isFiller w) ∧
    clean_text ("Check checkpoint".toList) = "checkpoint".toList := by
  constructor
  · show wordRuns (pyStrip (removeFillers (keepAlnumSpace (lowerStr x)))) = _
    rw [wordRuns_pyStrip, wordRuns_removeFillers]
  · decide

/-- Claim C2: the blended score of every scored candidate equals exactly
0.6 times the maximum of the three sub-scores plus 0.4 times their
arithmetic mean. -/
theorem chunkScore_formula (s : Scorer) (a b : List Char) :
    chunkScore s a b =
      0.6 * max (max (s.pr a b) (s.tsr a b)) (s.ratio a b) +
      0.4 * ((s.pr a b + s.tsr a b + s.ratio a b) / 3) := by
  unfold chunkScore blendScore
  ring

/-- Claim C10: the duplicated implementations in src/app.py and
src/app_cpp.py are extensionally equal: `check_compliance` agrees on every
transcript, checklist and threshold, and `clean_text` agrees on every
string. -/
theorem app_variants_agree (s : Scorer) (t : List Char) (cl : List (List Char))
    (th : ℚ) (x : List Char) :
    check_compliance_cpp s t cl th = check_compliance s t cl th ∧
    clean_text_cpp x = clean_text x :=
  ⟨rfl, rfl⟩

/-! ### Projections of one evaluated checklist item -/

theorem evalStep_score (s : Scorer) (ws : List (List Char)) (t : List Char)
    (th : ℚ) (step : List Char) :
    (evalStep s ws t th step).score =
      if (bestSpan s (clean_text step) ws).1 = 100 ∧
          hasSub (clean_text step) (clean_text t) = false then (99 : ℚ)
      else (bestSpan s (clean_text step) ws).1 := rfl

theorem evalStep_status (s : Scorer) (ws : List (List Char)) (t : List Char)
    (th : ℚ) (step : List Char) :
    (evalStep s ws t th step).status =
      (if th ≤ (evalStep s ws t th step).score then Status.PASS
       else Status.FAIL) := rfl

theorem evalStep_item (s : Scorer) (ws : List (List Char)) (t : List Char)
    (th : ℚ) (step : List Char) :
    (evalStep s ws t th step).item = step := rfl

/-- Claim C5: `check_compliance` returns exactly one result per checklist
item, in checklist order, each carrying that item's text; an empty checklist
yields an empty result list. -/
theorem results_align (s : Scorer) (t : List Char) (cl : List (List Char))
    (th : ℚ) :
    (check_compliance s t cl th).length = cl.length ∧
    (check_compliance s t cl th).map (fun r => r.item) = cl ∧
    check_compliance s t [] th = [] := by
  refine ⟨?_, ?_, rfl⟩
  · show (cl.map (evalStep s (pySplit (lowerStr t)) t th)).length = cl.length
    rw [List.length_map]
  · show (cl.map (evalStep s (pySplit (lowerStr t)) t th)).map
      (fun r => r.item) = cl
    rw [List.map_map]
    have hid : ((fun r : MatchResult => r.item) ∘
        evalStep s (pySplit (lowerStr t)) t th) = id := by
      funext st
      rfl
    rw [hid, List.map_id]

/-- Claim C4: every emitted result has status PASS if and only if its reported
(post-clamp) score is at least the threshold; in particular a score exactly
equal to the threshold is PASS. -/
theorem pass_iff_threshold (s : Scorer) (t : List Char) (cl : List (List Char))
    (th : ℚ) (r : MatchResult) (hr : r ∈ check_compliance s t cl th) :
    (r.status = Status.PASS ↔ th ≤ r.score) ∧
    (r.score = th → r.status = Status.PASS) := by
  simp only [check_compliance] at hr
  obtain ⟨st, _, hst⟩ := List.mem_map.mp hr
  subst hst
  constructor
  · rw [evalStep_status]
    by_cases h : th ≤ (evalStep s (pySplit (lowerStr t)) t th st).score
    · rw [if_pos h]
      simp [h]
    · rw [if_neg h]
      simp [h]
  · intro he
    rw [evalStep_status, if_pos (le_of_eq he.symm)]

/-- Claim C3: if the windowed best score is exactly 100 and the normalised
item is not a substring of the normalised transcript, the reported score is
clamped to 99; otherwise the reported score is the windowed best score
unchanged; consequently a reported score of exactly 100 implies the
normalised item occurs verbatim in the normalised transcript. -/
theorem score_clamp_spec (s : Scorer) (ws : List (List Char)) (t step : List Char)
    (th : ℚ) :
    ((bestSpan s (clean_text step) ws).1 = 100 →
      hasSub (clean_text step) (clean_text t) = false →
      (evalStep s ws t th step).score = 99) ∧
    (¬((bestSpan s (clean_text step) ws).1 = 100 ∧
        hasSub (clean_text step) (clean_text t) = false) →
      (evalStep s ws t th step).score = (bestSpan s (clean_text step) ws).1) ∧
    ((evalStep s ws t th step).score = 100 →
      hasSub (clean_text step) (clean_text t) = true) := by
  refine ⟨?_, ?_, ?_⟩
  · intro h1 h2
    rw [evalStep_score, if_pos ⟨h1, h2⟩]
  · intro h
    rw [evalStep_score, if_neg h]
  · intro h
    rw [evalStep_score] at h
    by_cases hc : (bestSpan s (clean_text step) ws).1 = 100 ∧
        hasSub (clean_text step) (clean_text t) = false
    · rw [if_pos hc] at h
      norm_num at h
    · rw [if_neg hc] at h
      by_cases hs : hasSub (clean_text step) (clean_text t) = true
      · exact hs
      · exact absurd ⟨h, by simpa using hs⟩ hc

/-- Claim C7 (amended): on a transcript with no whitespace-delimited words,
every result carries score 0, and its status is FAIL exactly when the
threshold is positive (a threshold `≤ 0` makes the zero-score item PASS,
because the threshold test is inclusive). -/
theorem empty_transcript_amended (s : Scorer) (t : List Char)
    (cl : List (List Char)) (th : ℚ) (hw : pySplit (lowerStr t) = [])
    (r : MatchResult) (hr : r ∈ check_compliance s t cl th) :
    r.score = 0 ∧ (r.status = Status.FAIL ↔ 0 < th) := by
  simp only [check_compliance, hw] at hr
  obtain ⟨st, _, hst⟩ := List.mem_map.mp hr
  subst hst
  have hbest : bestSpan s (clean_text st) ([] : List (List Char)) = (0, []) := rfl
  have hscore : (evalStep s [] t th st).score = 0 := by
    rw [evalStep_score, hbest]
    norm_num
  refine ⟨hscore, ?_⟩
  rw [evalStep_status, hscore]
  by_cases h : th ≤ 0
  · rw [if_pos h]
    constructor
    · intro hpf
      exact absurd hpf (by simp)
    · intro hth
      exact absurd hth (not_lt.mpr h)
  · rw [if_neg h]
    simp [lt_of_not_le h]

/-! ### Analysis of the sliding-window fold -/

theorem searchStep_eq (s : Scorer) (sc : List Char) (ws : List (List Char))
    (acc : ℚ × List Char) (p : Nat × Nat) :
    searchStep s sc ws acc p =
      if spanClean ws p = [] then acc
      else if acc.1 < spanScore s sc ws p then
        (spanScore s sc ws p, spanChunk ws p)
      else acc := rfl

theorem searchStep_cases (s : Scorer) (sc : List Char) (ws : List (List Char))
    (acc : ℚ × List Char) (p : Nat × Nat) :
    (spanClean ws p = [] ∧ searchStep s sc ws acc p = acc) ∨
    (spanClean ws p ≠ [] ∧ ¬acc.1 < spanScore s sc ws p ∧
      searchStep s sc ws acc p = acc) ∨
    (spanClean ws p ≠ [] ∧ acc.1 < spanScore s sc ws p ∧
      searchStep s sc ws acc p = (spanScore s sc ws p, spanChunk ws p)) := by
  rw [searchStep_eq]
  by_cases h1 : spanClean ws p = []
  · exact Or.inl ⟨h1, by rw [if_pos h1]⟩
  · by_cases h2 : acc.1 < spanScore s sc ws p
    · exact Or.inr (Or.inr ⟨h1, h2, by rw [if_neg h1, if_pos h2]⟩)
    · exact Or.inr (Or.inl ⟨h1, h2, by rw [if_neg h1, if_neg h2]⟩)

theorem foldSearch_fst_le (s : Scorer) (sc : List Char) (ws : List (List Char)) :
    ∀ (L : List (Nat × Nat)) (acc : ℚ × List Char),
      acc.1 ≤ (L.foldl (searchStep s sc ws) acc).1 := by
  intro L
  induction L with
  | nil => intro acc; simp
  | cons x L' ih =>
    intro acc
    rw [List.foldl_cons]
    refine le_trans ?_ (ih (searchStep s sc ws acc x))
    rcases searchStep_cases s sc ws acc x with ⟨_, he⟩ | ⟨_, _, he⟩ | ⟨_, hlt, he⟩
    · rw [he]
    · rw [he]
    · rw [he]
      exact le_of_lt hlt

theorem foldSearch_ub (s : Scorer) (sc : List Char) (ws : List (List Char)) :
    ∀ (L : List (Nat × Nat)) (acc : ℚ × List Char) (p : Nat × Nat),
      p ∈ L → spanClean ws p ≠ [] →
      spanScore s sc ws p ≤ (L.foldl (searchStep s sc ws) acc).1 := by
  intro L
  induction L with
  | nil =>
    intro acc p hp _
    simp at hp
  | cons x L' ih =>
    intro acc p hp hne
    rw [List.foldl_cons]
    rcases List.mem_cons.mp hp with rfl | hmem
    · refine le_trans ?_ (foldSearch_fst_le s sc ws L' (searchStep s sc ws acc p))
      rcases searchStep_cases s sc ws acc p with ⟨hcl, _⟩ | ⟨_, hnlt, he⟩ | ⟨_, _, he⟩
      · exact absurd hcl hne
      · rw [he]
        exact le_of_not_lt hnlt
      · rw [he]
    · exact ih (searchStep s sc ws acc x) p hmem hne

theorem foldSearch_stable (s : Scorer) (sc : List Char) (ws : List (List Char)) :
    ∀ (L : List (Nat × Nat)) (acc : ℚ × List Char),
      (L.foldl (searchStep s sc ws) acc).1 = acc.1 →
      L.foldl (searchStep s sc ws) acc = acc := by
  intro L
  induction L with
  | nil =>
    intro acc _
    rfl
  | cons x L' ih =>
    intro acc h
    rw [List.foldl_cons] at h ⊢
    rcases searchStep_cases s sc ws acc x with ⟨_, he⟩ | ⟨_, _, he⟩ | ⟨_, hlt, he⟩
    · rw [he] at h ⊢
      exact ih acc h
    · rw [he] at h ⊢
      exact ih acc h
    · exfalso
      have h1 := foldSearch_fst_le s sc ws L' (searchStep s sc ws acc x)
      rw [he] at h1 h
      exact absurd (h ▸ h1) (not_le.mpr hlt)

theorem foldSearch_first (s : Scorer) (sc : List Char) (ws : List (List Char)) :
    ∀ (L : List (Nat × Nat)) (acc : ℚ × List Char),
      acc.1 < (L.foldl (searchStep s sc ws) acc).1 →
      ∃ p, L.find? (fun q => decide (spanClean ws q ≠ [] ∧
          spanScore s sc ws q = (L.foldl (searchStep s sc ws) acc).1)) = some p ∧
        L.foldl (searchStep s sc ws) acc =
          (spanScore s sc ws p, spanChunk ws p) := by
  intro L
  induction L with
  | nil =>
    intro acc h
    simp at h
  | cons x L' ih =>
    intro acc h
    rw [List.foldl_cons] at h ⊢
    rcases searchStep_cases s sc ws acc x with ⟨hcl, he⟩ | ⟨hcl, hnlt, he⟩ |
      ⟨hcl, hlt, he⟩
    · rw [he] at h ⊢
      obtain ⟨p, hfind, heq⟩ := ih acc h
      refine ⟨p, ?_, heq⟩
      rw [List.find?_cons_of_neg _ (by simp [hcl])]
      exact hfind
    · rw [he] at h ⊢
      obtain ⟨p, hfind, heq⟩ := ih acc h
      refine ⟨p, ?_, heq⟩
      rw [List.find?_cons_of_neg]
      · exact hfind
      · simp only [decide_eq_true_eq, not_and]
        intro _ heq2
        have hle := le_of_not_lt hnlt
        rw [heq2] at hle
        exact absurd h (not_lt.mpr hle)
    · rw [he] at h ⊢
      by_cases hsame : (L'.foldl (searchStep s sc ws)
          (spanScore s sc ws x, spanChunk ws x)).1 = spanScore s sc ws x
      · have hstab := foldSearch_stable s sc ws L'
          (spanScore s sc ws x, spanChunk ws x) hsame
        refine ⟨x, ?_, by rw [hstab]⟩
        apply List.find?_cons_of_pos
        simp only [decide_eq_true_eq]
        exact ⟨hcl, by rw [hstab]⟩
      · have hle := foldSearch_fst_le s sc ws L'
          (spanScore s sc ws x, spanChunk ws x)
        have hlt2 : (spanScore s sc ws x, spanChunk ws x).1 <
            (L'.foldl (searchStep s sc ws)
              (spanScore s sc ws x, spanChunk ws x)).1 :=
          lt_of_le_of_ne hle (fun hh => hsame hh.symm)
        obtain ⟨p, hfind, heq⟩ := ih (spanScore s sc ws x, spanChunk ws x) hlt2
        refine ⟨p, ?_, heq⟩
        rw [List.find?_cons_of_neg]
        · exact hfind
        · simp only [decide_eq_true_eq, not_and]
          intro _ heq2
          exact hsame heq2.symm

theorem mem_candidatePairs (n : Nat) (p : Nat × Nat) :
    p ∈ candidatePairs n ↔
      p.1 < p.2 ∧ p.2 ≤ n ∧ p.2 ≤ p.1 + MAX_CHUNK_WORDS := by
  cases p with
  | mk i j =>
    unfold candidatePairs
    simp only [List.mem_flatMap, List.mem_map, List.mem_range, List.mem_range'_1,
      Prod.mk.injEq]
    constructor
    · rintro ⟨i', hi', j', ⟨hj1, hj2⟩, rfl, rfl⟩
      omega
    · rintro ⟨h1, h2, h3⟩
      exact ⟨i, by omega, j, ⟨by omega, by omega⟩, rfl, rfl⟩

theorem blendScore_nonneg (pr tsr ratio : ℚ) (h1 : 0 ≤ pr) (h2 : 0 ≤ tsr)
    (h3 : 0 ≤ ratio) : 0 ≤ blendScore pr tsr ratio := by
  unfold blendScore
  have hmax : (0 : ℚ) ≤ max (max pr tsr) ratio :=
    le_trans h3 (le_max_right _ _)
  have hsum : (0 : ℚ) ≤ pr + tsr + ratio := by linarith
  have e1 : (0 : ℚ) ≤ max (max pr tsr) ratio * 0.6 :=
    mul_nonneg hmax (by norm_num)
  have e2 : (0 : ℚ) ≤ (pr + tsr + ratio) / 3 * 0.4 :=
    mul_nonneg (div_nonneg hsum (by norm_num)) (by norm_num)
  linarith

theorem blendScore_diag (v : ℚ) : blendScore v v v = v := by
  unfold blendScore
  rw [max_self, max_self]
  ring

/-- Claim C1 (amended): for the window search of `check_compliance` with
metric values in `[0, ∞)` (as `rapidfuzz` guarantees), the returned
`best_score` is an upper bound of the blended scores of all spans `[i, j)`
with `1 ≤ j - i ≤ 20` whose normalisation is non-empty, it is attained by
some such span whenever one exists, and — when it is strictly positive — the
returned `best_chunk_raw` is the chunk of the FIRST such span attaining it in
the enumeration order (increasing `i`, then increasing `j`; replacement only
on strictly greater score).  When the best score is 0 the returned chunk is
the initial empty string, not the first maximising span (this is the one
deviation from the claim as stated). -/
theorem window_search_max (s : Scorer)
    (hnn : ∀ a b, 0 ≤ s.pr a b ∧ 0 ≤ s.tsr a b ∧ 0 ≤ s.ratio a b)
    (sc : List Char) (ws : List (List Char)) :
    0 ≤ (bestSpan s sc ws).1 ∧
    (∀ i j, i < j → j ≤ ws.length → j ≤ i + MAX_CHUNK_WORDS →
      spanClean ws (i, j) ≠ [] →
      spanScore s sc ws (i, j) ≤ (bestSpan s sc ws).1) ∧
    ((∃ i j, i < j ∧ j ≤ ws.length ∧ j ≤ i + MAX_CHUNK_WORDS ∧
        spanClean ws (i, j) ≠ []) →
      ∃ i j, i < j ∧ j ≤ ws.length ∧ j ≤ i + MAX_CHUNK_WORDS ∧
        spanClean ws (i, j) ≠ [] ∧
        spanScore s sc ws (i, j) = (bestSpan s sc ws).1) ∧
    (0 < (bestSpan s sc ws).1 →
      ∃ p, (candidatePairs ws.length).find? (fun q =>
          decide (spanClean ws q ≠ [] ∧
            spanScore s sc ws q = (bestSpan s sc ws).1)) = some p ∧
        bestSpan s sc ws = (spanScore s sc ws p, spanChunk ws p)) ∧
    ((bestSpan s sc ws).1 = 0 → bestSpan s sc ws = (0, [])) := by
  have hspan : ∀ p : Nat × Nat, 0 ≤ spanScore s sc ws p := by
    intro p
    have h := hnn sc (spanClean ws p)
    exact blendScore_nonneg _ _ _ h.1 h.2.1 h.2.2
  have h0 : (0 : ℚ) ≤ (bestSpan s sc ws).1 :=
    foldSearch_fst_le s sc ws (candidatePairs ws.length) (0, [])
  have hub : ∀ i j, i < j → j ≤ ws.length → j ≤ i + MAX_CHUNK_WORDS →
      spanClean ws (i, j) ≠ [] →
      spanScore s sc ws (i, j) ≤ (bestSpan s sc ws).1 := by
    intro i j hij hjn hjm hne
    have hmem : (i, j) ∈ candidatePairs ws.length :=
      (mem_candidatePairs ws.length (i, j)).mpr ⟨hij, hjn, hjm⟩
    exact foldSearch_ub s sc ws _ (0, []) (i, j) hmem hne
  have hfirst : 0 < (bestSpan s sc ws).1 →
      ∃ p, (candidatePairs ws.length).find? (fun q =>
          decide (spanClean ws q ≠ [] ∧
            spanScore s sc ws q = (bestSpan s sc ws).1)) = some p ∧
        bestSpan s sc ws = (spanScore s sc ws p, spanChunk ws p) := by
    intro hpos
    exact foldSearch_first s sc ws (candidatePairs ws.length) (0, []) hpos
  refine ⟨h0, hub, ?_, hfirst, ?_⟩
  · rintro ⟨i, j, hij, hjn, hjm, hne⟩
    by_cases hz : (bestSpan s sc ws).1 = 0
    · refine ⟨i, j, hij, hjn, hjm, hne, ?_⟩
      have hle := hub i j hij hjn hjm hne
      rw [hz] at hle ⊢
      exact le_antisymm hle (hspan (i, j))
    · have hpos : 0 < (bestSpan s sc ws).1 := lt_of_le_of_ne h0 (Ne.symm hz)
      obtain ⟨p, hfind, heq⟩ := hfirst hpos
      have hmem := List.mem_of_find?_eq_some hfind
      have hprop := List.find?_some hfind
      simp only [decide_eq_true_eq] at hprop
      have hchar := (mem_candidatePairs ws.length p).mp hmem
      exact ⟨p.1, p.2, hchar.1, hchar.2.1, hchar.2.2, hprop.1, hprop.2⟩
  · intro hz
    exact foldSearch_stable s sc ws (candidatePairs ws.length) (0, []) hz

/-- Witness for claim C1's amended theorem at a concrete instance. -/
theorem window_search_max_witness :
    spanScore (constScorer 50) ("a".toList) [("a".toList)] (0, 1) ≤
      (bestSpan (constScorer 50) ("a".toList) [("a".toList)]).1 :=
  (window_search_max (constScorer 50)
    (fun _ _ => ⟨by norm_num [constScorer], by norm_num [constScorer],
      by norm_num [constScorer]⟩)
    ("a".toList) [("a".toList)]).2.1 0 1 (by decide) (by decide) (by decide)
    (by decide)

/-- Counterexample to claim C1 as stated: with transcript word list `["b"]`
and normalised item `"a"`, the only candidate span `(0, 1)` is valid (its
normalisation `"b"` is non-empty) and attains the returned best score (both
are 0, since all three metric values are 0 — exactly what `rapidfuzz` returns
for the disjoint strings `"a"` and `"b"`), yet the returned `best_chunk_raw`
is the initial empty string, not that first maximising span's chunk `"b"`:
replacement happens only on strictly greater score, so a maximum of 0 never
installs any chunk. -/
theorem window_search_first_ce :
    spanClean [("b".toList)] (0, 1) ≠ [] ∧
    spanScore (constScorer 0) ("a".toList) [("b".toList)] (0, 1) =
      (bestSpan (constScorer 0) ("a".toList) [("b".toList)]).1 ∧
    (bestSpan (constScorer 0) ("a".toList) [("b".toList)]).2 ≠
      spanChunk [("b".toList)] (0, 1) := by
  have hscore : spanScore (constScorer 0) ("a".toList) [("b".toList)] (0, 1)
      = 0 := by
    show blendScore 0 0 0 = 0
    exact blendScore_diag 0
  have hbest : bestSpan (constScorer 0) ("a".toList) [("b".toList)] = (0, []) := by
    unfold bestSpan
    have hcand : candidatePairs [("b".toList)].length = [(0, 1)] := by decide
    rw [hcand, List.foldl_cons, List.foldl_nil, searchStep_eq,
      if_neg (by decide), hscore]
    rw [if_neg (lt_irrefl (0 : ℚ))]
  refine ⟨by decide, ?_, ?_⟩
  · rw [hscore, hbest]
  · rw [hbest]
    decide

theorem bestSpan_c100 :
    bestSpan (constScorer 100) (clean_text ("a".toList)) [("b".toList)] =
      (100, "b".toList) := by
  unfold bestSpan
  have hcand : candidatePairs [("b".toList)].length = [(0, 1)] := by decide
  have hscore : spanScore (constScorer 100) (clean_text ("a".toList))
      [("b".toList)] (0, 1) = 100 := by
    show blendScore 100 100 100 = 100
    exact blendScore_diag 100
  rw [hcand, List.foldl_cons, List.foldl_nil, searchStep_eq,
    if_neg (by decide), hscore, if_pos (by decide)]
  have hchunk : spanChunk [("b".toList)] (0, 1) = "b".toList := by decide
  rw [hchunk]

/-- Witness for claim C3's theorem: item "a" against transcript "b" with a
scorer constantly returning 100 (a perfect token-set style score without a
verbatim occurrence) gets clamped from 100 to 99. -/
theorem score_clamp_spec_witness :
    (evalStep (constScorer 100) [("b".toList)] ("b".toList) 50
      ("a".toList)).score = 99 :=
  (score_clamp_spec (constScorer 100) [("b".toList)] ("b".toList)
    ("a".toList) 50).1 (by rw [bestSpan_c100]) (by decide)

/-- Witness for claim C4's theorem at a concrete instance. -/
theorem pass_iff_threshold_witness :
    ((MatchResult.mk Status.FAIL ("a".toList) 0 []).status = Status.PASS ↔
      (50 : ℚ) ≤ (MatchResult.mk Status.FAIL ("a".toList) 0 []).score) ∧
    ((MatchResult.mk Status.FAIL ("a".toList) 0 []).score = 50 →
      (MatchResult.mk Status.FAIL ("a".toList) 0 []).status = Status.PASS) :=
  pass_iff_threshold (constScorer 0) [] [("a".toList)] 50
    (MatchResult.mk Status.FAIL ("a".toList) 0 []) (by decide)

/-- Counterexample to claim C7 as stated: on the empty transcript with
threshold 0, the zero-score item passes (the threshold test is inclusive),
so not every item FAILs for every threshold. -/
theorem empty_transcript_ce :
    (check_compliance (constScorer 0) [] [("a".toList)] 0).map
      (fun r => r.status) = [Status.PASS] := by
  decide

/-- Witness for claim C7's amended theorem at a concrete instance. -/
theorem empty_transcript_amended_witness :
    (MatchResult.mk Status.FAIL ("a".toList) 0 []).score = 0 ∧
    ((MatchResult.mk Status.FAIL ("a".toList) 0 []).status = Status.FAIL ↔
      (0 : ℚ) < 50) :=
  empty_transcript_amended (constScorer 0) [] [("a".toList)] 50 rfl
    (MatchResult.mk Status.FAIL ("a".toList) 0 []) (by decide)

/-- Claim C8 (amended): every invocation of the similarity metrics receives a
non-empty normalised chunk as its second argument (spans whose normalisation
is empty are skipped before scoring), and its first argument is always the
normalised checklist item — which the code does NOT test for emptiness. -/
theorem scorer_calls_chunk_nonempty (step : List Char) (ws : List (List Char))
    (c : List Char × List Char) (hc : c ∈ scorerCalls step ws) :
    c.2 ≠ [] ∧ c.1 = clean_text step := by
  simp only [scorerCalls, List.mem_filterMap] at hc
  obtain ⟨p, _, hp⟩ := hc
  by_cases hcl : clean_text (chunkOf ws p.1 p.2) = []
  · rw [if_pos hcl] at hp
    exact absurd hp (by simp)
  · rw [if_neg hcl] at hp
    have hp' := Option.some.inj hp
    rw [← hp']
    exact ⟨hcl, rfl⟩

/-- Witness for claim C8's amended theorem at a concrete instance. -/
theorem scorer_calls_chunk_nonempty_witness :
    ("a".toList, "b".toList).2 ≠ ([] : List Char) ∧
    ("a".toList, "b".toList).1 = clean_text ("a".toList) :=
  scorer_calls_chunk_nonempty ("a".toList) [("b".toList)]
    ("a".toList, "b".toList) (by decide)

/-- Counterexample to claim C8 as stated: for transcript word list `["a"]`
and the checklist item "check" (which normalises to the empty string), the
metrics ARE invoked — with the empty string as the normalised-item argument:
the code only skips empty chunks, never empty items.  The invocation list is
independent of the metric values. -/
theorem scorer_empty_arg_ce :
    (([] : List Char), "a".toList) ∈
      scorerCalls ("check".toList) (pySplit (lowerStr ("a".toList))) := by
  decide
